import Mathlib

/-!
Shallow embedding of the voting-app repository.

Source files embedded:
* `src/voting-app/vote/app.py` — the Flask intake: `GET /health`, `POST /vote`.
  The redis client is modelled by `RedisState` (a reachability flag, the
  message the client raises when unreachable, and the contents of the
  `votes` list).  `lpush` prepends to the list; `brpop` removes from the
  tail, exactly as redis does for those commands.
* `src/voting-app/worker/worker.py` — the tally worker: `ensure_table`,
  `increment_vote` (the `INSERT ... ON CONFLICT(option) DO UPDATE SET
  count = votes.count + 1` upsert) and the body of the `main` loop.
  The `votes` table (`option TEXT PRIMARY KEY, count INTEGER`) is an
  association list keyed by option; `CREATE TABLE IF NOT EXISTS` acts on
  an `Option Table` (`none` = table absent).
-/

namespace VotingApp

/-- Result of a Flask handler as observed by the client: the app only ever
returns `redirect("/")` from `POST /vote`. -/
inductive Response where
  | redirect (location : String)
deriving DecidableEq, Repr

/-- JSON body returned by `GET /health`: `{"status": "ok"}` or
`{"status": "error", "detail": str(e)}`. -/
inductive HealthBody where
  | ok
  | error (detail : String)
deriving DecidableEq, Repr

/-- The redis queue store as both components see it: whether it is
reachable, the message of the exception its client raises when it is not,
and the current contents of the `votes` list (head of the Lean list =
head/left end of the redis list). -/
structure RedisState where
  reachable : Bool
  errMsg : String
  votes : List String
deriving DecidableEq, Repr

/-- `r.ping()`: succeeds when the store is reachable, raises otherwise. -/
def ping (st : RedisState) : Except String Unit :=
  if st.reachable then Except.ok () else Except.error st.errMsg

/-- `r.lpush("votes", v)`: prepend to the head of the list, raising when the
store is unreachable. -/
def lpush (st : RedisState) (v : String) : Except String RedisState :=
  if st.reachable then
    Except.ok { st with votes := v :: st.votes }
  else
    Except.error st.errMsg

/-- `r.brpop("votes")`: remove and return the element at the tail (the end
opposite to the one `lpush` feeds).  `none` models the blocking wait on an
empty list. -/
def brpop (q : List String) : Option (String × List String) :=
  match q.reverse with
  | [] => none
  | v :: rest => some (v, rest.reverse)

/-- `GET /health` from `app.py` lines 24–30: ping the queue store; on
success return `{"status": "ok"}` with status 200, on any exception return
`{"status": "error", "detail": str(e)}` with status 500.  The handler
returns the store state untouched (the ping mutates nothing). -/
def health (st : RedisState) : RedisState × HealthBody × Nat :=
  match ping st with
  | Except.ok _ => (st, HealthBody.ok, 200)
  | Except.error e => (st, HealthBody.error e, 500)

/-- `POST /vote` from `app.py` lines 32–38: read the optional form field
`vote`; if its value is not in `("cats", "dogs")` (a missing field reads as
`None`, which is not in the tuple) redirect to `/` without touching the
queue; otherwise `lpush` the value and redirect to `/`.  There is no
try/except around the push, so a push failure propagates out. -/
def vote (st : RedisState) (form : Option String) :
    Except String (RedisState × Response) :=
  match form with
  | none => Except.ok (st, Response.redirect "/")
  | some v =>
    if v = "cats" ∨ v = "dogs" then
      match lpush st v with
      | Except.ok st2 => Except.ok (st2, Response.redirect "/")
      | Except.error e => Except.error e
    else
      Except.ok (st, Response.redirect "/")

/-- The `votes` table of `worker.py`: one row per option
(`option TEXT PRIMARY KEY, count INTEGER NOT NULL`). -/
abbrev Table := List (String × Nat)

/-- `SELECT count FROM votes WHERE option = key`: the count stored for an
option, `none` when no row exists. -/
def findCount : Table → String → Option Nat
  | [], _ => none
  | (o, c) :: rest, key => if o = key then some c else findCount rest key

/-- The tally an option represents: the stored count, with absence of a row
read as count 0. -/
def countOf (t : Table) (o : String) : Nat := (findCount t o).getD 0

/-- `ensure_table` from `worker.py` lines 28–36:
`CREATE TABLE IF NOT EXISTS votes (...)` — create the (empty) table when it
is absent, leave it exactly as it is when present. -/
def ensure_table : Option Table → Option Table
  | none => some []
  | some t => some t

/-- `increment_vote` from `worker.py` lines 39–48:
`INSERT INTO votes(option, count) VALUES (%s, 1) ON CONFLICT(option) DO
UPDATE SET count = votes.count + 1` — a single store-side upsert: if a row
with this primary key exists its count is incremented by 1, otherwise a
fresh row with count 1 is inserted. -/
def increment_vote : Table → String → Table
  | [], choice => [(choice, 1)]
  | (o, c) :: rest, choice =>
    if o = choice then (o, c + 1) :: rest
    else (o, c) :: increment_vote rest choice

/-- One iteration of the worker `main` loop (`worker.py` lines 57–61) on an
already-dequeued, already-decoded value: if the value is in
`("cats", "dogs")` apply the upsert and print `counted: <choice>`;
otherwise do nothing and print nothing.  The result is the new table and
the lines printed by the iteration. -/
def loopIter (t : Table) (val : String) : Table × List String :=
  if val = "cats" ∨ val = "dogs" then
    (increment_vote t val, ["counted: " ++ val])
  else
    (t, [])

/-- The table effect of one `main`-loop iteration. -/
def stepWorker (t : Table) (val : String) : Table := (loopIter t val).1

/-- The table after the worker has consumed the given sequence of dequeued
values, in order. -/
def runWorker (t : Table) (vals : List String) : Table :=
  vals.foldl stepWorker t

/-- An operation the worker performs against the persisted store:
`ensure_table` at startup, or one `main`-loop iteration on a dequeued
value. -/
inductive WorkerOp where
  | ensure
  | process (val : String)

/-- Effect of one worker operation on the (possibly absent) table.  A
`process` with no table would raise in SQL and be caught by the loop's
`except` clause, leaving the store unchanged. -/
def applyOp : Option Table → WorkerOp → Option Table
  | s, WorkerOp.ensure => ensure_table s
  | some t, WorkerOp.process val => some (stepWorker t val)
  | none, WorkerOp.process _ => none

/-- The store after a sequence of worker operations. -/
def runOps (s : Option Table) (ops : List WorkerOp) : Option Table :=
  ops.foldl applyOp s

/-- Count of an option in a possibly absent table (absent table or absent
row both read as 0). -/
def countOfS : Option Table → String → Nat
  | none, _ => 0
  | some t, o => countOf t o

/-- Whether a row for the option exists. -/
def rowExists : Option Table → String → Bool
  | none, _ => false
  | some t, o => (findCount t o).isSome

/-- An event on the shared `votes` list: the intake's `lpush` of a vote, or
the worker's `brpop`. -/
inductive QEvent where
  | push (v : String)
  | pop

/-- History of the shared list: its current contents, every value pushed
so far in push order, and every value popped so far in pop order. -/
structure QTrace where
  queue : List String
  pushed : List String
  popped : List String
deriving DecidableEq, Repr

/-- One event on the shared list: `push` prepends to the head exactly as
`lpush` does (`app.py` line 37); `pop` removes from the tail exactly as
`brpop` does (`worker.py` line 57), and on an empty list the blocking pop
simply has not returned yet, so nothing changes. -/
def stepQ (s : QTrace) : QEvent → QTrace
  | QEvent.push v =>
    { s with queue := v :: s.queue, pushed := s.pushed ++ [v] }
  | QEvent.pop =>
    match brpop s.queue with
    | some (v, rest) => { s with queue := rest, popped := s.popped ++ [v] }
    | none => s

/-- The list history after a sequence of events. -/
def runQ (s : QTrace) (es : List QEvent) : QTrace := es.foldl stepQ s

/-- The initial, empty history. -/
def initQ : QTrace := { queue := [], pushed := [], popped := [] }

/-! ### Helper lemmas about the upsert -/

/-- After the upsert for `o`, the row for `o` holds its previous tally plus
one (with absence read as 0). -/
theorem findCount_increment_self (t : Table) (o : String) :
    findCount (increment_vote t o) o = some (countOf t o + 1) := by
  induction t with
  | nil => simp [increment_vote, findCount, countOf]
  | cons hd tl ih =>
    obtain ⟨a, c⟩ := hd
    by_cases hao : a = o
    · subst hao
      simp [increment_vote, findCount, countOf]
    · simp [increment_vote, findCount, hao, countOf] at ih ⊢
      exact ih

/-- The upsert for `o` leaves the row of every other option untouched. -/
theorem findCount_increment_other (t : Table) (o x : String) (hx : x ≠ o) :
    findCount (increment_vote t o) x = findCount t x := by
  induction t with
  | nil =>
    have hox : o ≠ x := fun h => hx h.symm
    simp [increment_vote, findCount, hox]
  | cons hd tl ih =>
    obtain ⟨a, c⟩ := hd
    by_cases hao : a = o
    · subst hao
      have hax : a ≠ x := fun h => hx h.symm
      simp [increment_vote, findCount, hax]
    · by_cases hax : a = x
      · subst hax
        simp [increment_vote, findCount, hao]
      · simp [increment_vote, findCount, hao, hax]
        exact ih

/-- When no row for `o` exists, the upsert inserts the single fresh row
`(o, 1)` and keeps every existing row. -/
theorem increment_absent (t : Table) (o : String)
    (h : findCount t o = none) : increment_vote t o = t ++ [(o, 1)] := by
  induction t with
  | nil => simp [increment_vote]
  | cons hd tl ih =>
    obtain ⟨a, c⟩ := hd
    by_cases hao : a = o
    · subst hao
      simp [findCount] at h
    · simp [findCount, hao] at h
      simp [increment_vote, hao, ih h]

/-- Tally version of `findCount_increment_self`. -/
theorem countOf_increment_self (t : Table) (o : String) :
    countOf (increment_vote t o) o = countOf t o + 1 := by
  simp [countOf, findCount_increment_self]

/-- Tally version of `findCount_increment_other`. -/
theorem countOf_increment_other (t : Table) (o x : String) (hx : x ≠ o) :
    countOf (increment_vote t o) x = countOf t x := by
  simp [countOf, findCount_increment_other t o x hx]

/-- One loop iteration changes the `"cats"` tally by exactly one when the
dequeued value is `"cats"` and leaves it unchanged otherwise. -/
theorem countOf_step_cats (t : Table) (v : String) :
    countOf (stepWorker t v) "cats"
      = countOf t "cats" + (if v = "cats" then 1 else 0) := by
  by_cases hc : v = "cats"
  · subst hc
    simp [stepWorker, loopIter, countOf_increment_self]
  · by_cases hd : v = "dogs"
    · subst hd
      have : ("cats" : String) ≠ "dogs" := by decide
      simp [stepWorker, loopIter, countOf_increment_other _ _ _ this]
    · simp [stepWorker, loopIter, hc, hd]

/-- Over a whole run, the `"cats"` tally grows by exactly the number of
`"cats"` entries consumed. -/
theorem runWorker_count_cats (vals : List String) (t : Table) :
    countOf (runWorker t vals) "cats"
      = countOf t "cats" + vals.count "cats" := by
  induction vals generalizing t with
  | nil => simp [runWorker]
  | cons v vs ih =>
    have hstep : runWorker t (v :: vs) = runWorker (stepWorker t v) vs := rfl
    rw [hstep, ih, countOf_step_cats, List.count_cons]
    by_cases hv : v = "cats"
    · subst hv
      simp [Nat.add_assoc, Nat.add_comm]
    · have h2 : ("cats" : String) ≠ v := fun h => hv h.symm
      simp [hv, h2]

/-! ### Helper lemmas for the worker invariants -/

/-- The upsert preserves the row invariant "every option is one of the two
ballot choices and every count is at least 1", provided the upserted choice
is itself a ballot choice. -/
theorem rows_increment (t : Table) (choice : String)
    (ht : ∀ r ∈ t, (r.1 = "cats" ∨ r.1 = "dogs") ∧ 1 ≤ r.2)
    (hc : choice = "cats" ∨ choice = "dogs") :
    ∀ r ∈ increment_vote t choice, (r.1 = "cats" ∨ r.1 = "dogs") ∧ 1 ≤ r.2 := by
  induction t with
  | nil =>
    intro r hr
    simp [increment_vote] at hr
    subst hr
    exact ⟨hc, le_refl 1⟩
  | cons hd tl ih =>
    obtain ⟨a, c⟩ := hd
    intro r hr
    by_cases hao : a = choice
    · subst hao
      simp [increment_vote] at hr
      rcases hr with hr | hr
      · subst hr
        exact ⟨(ht (a, c) (by simp)).1, Nat.succ_le_succ (Nat.zero_le c)⟩
      · exact ht r (by simp [hr])
    · simp [increment_vote, hao] at hr
      rcases hr with hr | hr
      · subst hr
        exact ht (a, c) (by simp)
      · exact ih (fun x hx => ht x (by simp [hx])) r hr

/-- A whole worker run preserves the row invariant: the loop only ever
upserts values it has just validated against the ballot set. -/
theorem rows_runWorker (vals : List String) (t : Table)
    (ht : ∀ r ∈ t, (r.1 = "cats" ∨ r.1 = "dogs") ∧ 1 ≤ r.2) :
    ∀ r ∈ runWorker t vals, (r.1 = "cats" ∨ r.1 = "dogs") ∧ 1 ≤ r.2 := by
  induction vals generalizing t with
  | nil => exact ht
  | cons v vs ih =>
    have hrun : runWorker t (v :: vs) = runWorker (stepWorker t v) vs := rfl
    rw [hrun]
    apply ih
    by_cases hv : v = "cats" ∨ v = "dogs"
    · have hstep : stepWorker t v = increment_vote t v := by
        simp [stepWorker, loopIter, hv]
      rw [hstep]
      exact rows_increment t v ht hv
    · have hstep : stepWorker t v = t := by
        simp [stepWorker, loopIter, hv]
      rw [hstep]
      exact ht

/-- No single worker operation decreases any option's tally. -/
theorem countOfS_applyOp (s : Option Table) (op : WorkerOp) (o : String) :
    countOfS s o ≤ countOfS (applyOp s op) o := by
  cases op with
  | ensure =>
    cases s with
    | none => simp [applyOp, ensure_table, countOfS]
    | some t => exact le_refl _
  | process val =>
    cases s with
    | none => exact le_refl _
    | some t =>
      show countOf t o ≤ countOf (stepWorker t val) o
      by_cases hv : val = "cats" ∨ val = "dogs"
      · have hstep : stepWorker t val = increment_vote t val := by
          simp [stepWorker, loopIter, hv]
        rw [hstep]
        by_cases ho : o = val
        · subst ho
          rw [countOf_increment_self]
          exact Nat.le_succ _
        · rw [countOf_increment_other t val o ho]
      · have hstep : stepWorker t val = t := by
          simp [stepWorker, loopIter, hv]
        rw [hstep]

/-- No single worker operation deletes an existing row. -/
theorem rowExists_applyOp (s : Option Table) (op : WorkerOp) (o : String)
    (h : rowExists s o = true) : rowExists (applyOp s op) o = true := by
  cases op with
  | ensure =>
    cases s with
    | none => simp [rowExists] at h
    | some t => exact h
  | process val =>
    cases s with
    | none => simp [rowExists] at h
    | some t =>
      show (findCount (stepWorker t val) o).isSome = true
      by_cases hv : val = "cats" ∨ val = "dogs"
      · have hstep : stepWorker t val = increment_vote t val := by
          simp [stepWorker, loopIter, hv]
        rw [hstep]
        by_cases ho : o = val
        · subst ho
          rw [findCount_increment_self]
          rfl
        · rw [findCount_increment_other t val o ho]
          exact h
      · have hstep : stepWorker t val = t := by
          simp [stepWorker, loopIter, hv]
        rw [hstep]
        exact h

/-- Tallies are monotone along any sequence of worker operations. -/
theorem countOfS_runOps (ops : List WorkerOp) (s : Option Table) (o : String) :
    countOfS s o ≤ countOfS (runOps s ops) o := by
  induction ops generalizing s with
  | nil => exact le_refl _
  | cons op rest ih =>
    exact le_trans (countOfS_applyOp s op o) (ih (applyOp s op))

/-- Rows are never deleted along any sequence of worker operations. -/
theorem rowExists_runOps (ops : List WorkerOp) (s : Option Table) (o : String)
    (h : rowExists s o = true) : rowExists (runOps s ops) o = true := by
  induction ops generalizing s with
  | nil => exact h
  | cons op rest ih =>
    exact ih (applyOp s op) (rowExists_applyOp s op o h)

/-! ### Helper lemmas for the shared queue -/

/-- One event preserves the list-history invariant: what has been popped,
followed by the current list read tail-first, is exactly what has been
pushed, in push order. -/
theorem stepQ_inv (s : QTrace) (e : QEvent)
    (h : s.popped ++ s.queue.reverse = s.pushed) :
    (stepQ s e).popped ++ (stepQ s e).queue.reverse = (stepQ s e).pushed := by
  cases e with
  | push v =>
    simp [stepQ]
    rw [← h]
    simp
  | pop =>
    cases hrev : s.queue.reverse with
    | nil =>
      have hb : brpop s.queue = none := by simp [brpop, hrev]
      simpa [stepQ, hb] using h
    | cons a as =>
      have hb : brpop s.queue = some (a, as.reverse) := by simp [brpop, hrev]
      simp [stepQ, hb]
      rw [← h, hrev]

/-- The list-history invariant holds after any sequence of events. -/
theorem runQ_inv (es : List QEvent) (s : QTrace)
    (h : s.popped ++ s.queue.reverse = s.pushed) :
    (runQ s es).popped ++ (runQ s es).queue.reverse = (runQ s es).pushed := by
  induction es generalizing s with
  | nil => exact h
  | cons e rest ih =>
    exact ih (stepQ s e) (stepQ_inv s e h)

/-! ### The claims -/

/-- Claim C1: for every sequence of dequeued values containing N votes for
"cats" (arbitrarily interleaved with votes for other options), consumed by
the worker's main loop with no store failures and starting from a table
with no "cats" row, the final "cats" tally is exactly N, and any
reordering of the same sequence yields the same tally
(order-independent accumulation). -/
theorem C1_cats_accumulation (vals : List String) (t0 : Table)
    (h : findCount t0 "cats" = none) :
    countOf (runWorker t0 vals) "cats" = vals.count "cats" ∧
    ∀ vals2 : List String, vals2.Perm vals →
      countOf (runWorker t0 vals2) "cats" = vals.count "cats" := by
  have h0 : countOf t0 "cats" = 0 := by simp [countOf, h]
  constructor
  · rw [runWorker_count_cats, h0, Nat.zero_add]
  · intro vals2 hperm
    rw [runWorker_count_cats, h0, Nat.zero_add, hperm.count_eq]

/-- Witness for C1 at a concrete input and a concrete interleaving. -/
theorem C1_witness :
    countOf (runWorker [("dogs", 5)] ["cats", "dogs", "cats"]) "cats"
        = (["cats", "dogs", "cats"] : List String).count "cats" ∧
    countOf (runWorker [("dogs", 5)] ["dogs", "cats", "cats"]) "cats"
        = (["cats", "dogs", "cats"] : List String).count "cats" :=
  ⟨(C1_cats_accumulation ["cats", "dogs", "cats"] [("dogs", 5)] (by decide)).1,
   (C1_cats_accumulation ["cats", "dogs", "cats"] [("dogs", 5)] (by decide)).2
     ["dogs", "cats", "cats"] (by decide)⟩

/-- Claim C2: a single execution of the worker's upsert inserts the row
`(option, 1)` (keeping every existing row) when no row for the option
exists, otherwise increments that row's count by exactly 1; every other
option's row is untouched; and because the upsert is one store-side
insert-or-increment, two consecutive upserts for the same option always add
exactly 2 (no lost update). -/
theorem C2_upsert (t : Table) (o : String) :
    (findCount t o = none → increment_vote t o = t ++ [(o, 1)]) ∧
    (∀ c, findCount t o = some c →
      findCount (increment_vote t o) o = some (c + 1)) ∧
    (∀ x, x ≠ o → findCount (increment_vote t o) x = findCount t x) ∧
    countOf (increment_vote (increment_vote t o) o) o = countOf t o + 2 := by
  refine ⟨increment_absent t o, ?_,
    fun x hx => findCount_increment_other t o x hx, ?_⟩
  · intro c hc
    rw [findCount_increment_self]
    simp [countOf, hc]
  · rw [countOf_increment_self, countOf_increment_self]

/-- Witness for C2: insert-on-absent, increment-on-present, frame on other
rows, and the plus-two composition, each at a concrete table. -/
theorem C2_witness :
    increment_vote [("dogs", 2)] "cats" = [("dogs", 2)] ++ [("cats", 1)] ∧
    findCount (increment_vote [("cats", 3)] "cats") "cats" = some 4 ∧
    findCount (increment_vote [("dogs", 2)] "cats") "dogs"
      = findCount [("dogs", 2)] "dogs" ∧
    countOf (increment_vote (increment_vote [("dogs", 2)] "cats") "cats") "cats"
      = countOf [("dogs", 2)] "cats" + 2 :=
  ⟨(C2_upsert [("dogs", 2)] "cats").1 (by decide),
   (C2_upsert [("cats", 3)] "cats").2.1 3 (by decide),
   (C2_upsert [("dogs", 2)] "cats").2.2.1 "dogs" (by decide),
   (C2_upsert [("dogs", 2)] "cats").2.2.2⟩

/-- Claim C3: with a reachable queue store, `POST /vote` with form value v
appends v to the queue (length grows by exactly 1) and redirects to `/`
when v is in the ballot set, and leaves the store untouched while returning
the identical redirect to `/` otherwise — the response never distinguishes
an accepted vote from a rejected one. -/
theorem C3_vote_handler (q : List String) (m : String) (v : String) :
    ((v = "cats" ∨ v = "dogs") →
      vote ⟨true, m, q⟩ (some v)
        = Except.ok (⟨true, m, v :: q⟩, Response.redirect "/") ∧
      (v :: q).length = q.length + 1) ∧
    (¬(v = "cats" ∨ v = "dogs") →
      vote ⟨true, m, q⟩ (some v)
        = Except.ok (⟨true, m, q⟩, Response.redirect "/")) := by
  constructor
  · intro hv
    refine ⟨?_, rfl⟩
    simp only [vote]
    rw [if_pos hv]
    rfl
  · intro hv
    simp only [vote]
    rw [if_neg hv]

/-- Witness for C3 at a valid and at an invalid form value. -/
theorem C3_witness :
    (vote ⟨true, "", ["dogs"]⟩ (some "cats")
        = Except.ok (⟨true, "", "cats" :: ["dogs"]⟩, Response.redirect "/") ∧
      ("cats" :: ["dogs"] : List String).length
        = (["dogs"] : List String).length + 1) ∧
    vote ⟨true, "", ["dogs"]⟩ (some "fish")
        = Except.ok (⟨true, "", ["dogs"]⟩, Response.redirect "/") :=
  ⟨(C3_vote_handler ["dogs"] "" "cats").1 (Or.inl rfl),
   (C3_vote_handler ["dogs"] "" "fish").2 (by decide)⟩

/-- Claim C4: one main-loop iteration on a dequeued value outside the
ballot set leaves the tally table exactly unchanged and prints nothing —
in particular it reports no error: the entry is discarded silently. -/
theorem C4_invalid_discarded (t : Table) (val : String)
    (h : ¬(val = "cats" ∨ val = "dogs")) :
    loopIter t val = (t, []) := by
  simp [loopIter, h]

/-- Witness for C4 at a concrete malformed entry. -/
theorem C4_witness : loopIter [("cats", 2)] "elephants" = ([("cats", 2)], []) :=
  C4_invalid_discarded [("cats", 2)] "elephants" (by decide)

/-- Claim C5: the intake pushes to the head and the worker pops from the
tail, so along every interleaving of pushes and pops the values popped so
far, followed by the current queue read tail-first, are exactly the values
pushed so far in push order; consequently the popped sequence is always a
prefix of the pushed sequence — FIFO, never a later-pushed vote before an
earlier-pushed one. -/
theorem C5_fifo (es : List QEvent) :
    (runQ initQ es).popped ++ (runQ initQ es).queue.reverse
        = (runQ initQ es).pushed ∧
    (runQ initQ es).popped
        = (runQ initQ es).pushed.take (runQ initQ es).popped.length := by
  have h := runQ_inv es initQ (by simp [initQ])
  refine ⟨h, ?_⟩
  rw [← h]
  exact (List.take_left _ _).symm

/-- Claim C6: `GET /health` returns `{status: ok}` with 200 when the ping
succeeds and `{status: error, detail: <the raised message>}` with 500 when
it raises; the detail is non-empty whenever the raised message is; and in
both cases the handler leaves the store state untouched. -/
theorem C6_health (st : RedisState) :
    (health st).1 = st ∧
    (st.reachable = true → (health st).2 = (HealthBody.ok, 200)) ∧
    (st.reachable = false →
      (health st).2 = (HealthBody.error st.errMsg, 500) ∧
      (st.errMsg ≠ "" → (health st).2.1 ≠ HealthBody.error "")) := by
  cases hr : st.reachable with
  | true =>
    have hh : health st = (st, HealthBody.ok, 200) := by simp [health, ping, hr]
    rw [hh]
    refine ⟨rfl, fun _ => rfl, fun hf => ?_⟩
    simp [hr] at hf
  | false =>
    have hh : health st = (st, HealthBody.error st.errMsg, 500) := by
      simp [health, ping, hr]
    rw [hh]
    refine ⟨rfl, fun hf => ?_, fun _ => ⟨rfl, ?_⟩⟩
    · simp [hr] at hf
    · intro hm hcon
      exact hm (HealthBody.error.inj hcon)

/-- Witness for C6 at a reachable and at an unreachable store. -/
theorem C6_witness :
    (health ⟨true, "", ["cats"]⟩).2 = (HealthBody.ok, 200) ∧
    (health ⟨false, "connection refused", []⟩).2
        = (HealthBody.error "connection refused", 500) ∧
    (health ⟨false, "connection refused", []⟩).2.1 ≠ HealthBody.error "" :=
  ⟨(C6_health ⟨true, "", ["cats"]⟩).2.1 rfl,
   ((C6_health ⟨false, "connection refused", []⟩).2.2 rfl).1,
   ((C6_health ⟨false, "connection refused", []⟩).2.2 rfl).2 (by decide)⟩

/-- Claim C7: for a valid vote, when the queue push raises a connectivity
error the handler propagates that error (there is no catch around the
push) and never returns the success redirect. -/
theorem C7_push_failure (q : List String) (m : String) (v : String)
    (hv : v = "cats" ∨ v = "dogs") :
    vote ⟨false, m, q⟩ (some v) = Except.error m ∧
    ∀ (st2 : RedisState) (resp : Response),
      vote ⟨false, m, q⟩ (some v) ≠ Except.ok (st2, resp) := by
  have hh : vote ⟨false, m, q⟩ (some v) = Except.error m := by
    simp only [vote]
    rw [if_pos hv]
    rfl
  refine ⟨hh, fun st2 resp hcon => ?_⟩
  rw [hh] at hcon
  cases hcon

/-- Witness for C7 at a concrete valid vote against an unreachable store. -/
theorem C7_witness :
    vote ⟨false, "conn err", []⟩ (some "cats") = Except.error "conn err" :=
  (C7_push_failure [] "conn err" "cats" (Or.inl rfl)).1

/-- Claim C8: along every sequence of worker operations (`ensure_table`
and main-loop iterations) no option's tally ever decreases and no existing
row is ever deleted; a row exists as soon as one upsert for its option has
committed, and an absent row reads as tally 0. -/
theorem C8_monotone (s : Option Table) (ops : List WorkerOp) (o : String) :
    countOfS s o ≤ countOfS (runOps s ops) o ∧
    (rowExists s o = true → rowExists (runOps s ops) o = true) ∧
    (∀ (t : Table) (v : String),
      (findCount (increment_vote t v) v).isSome = true) ∧
    (∀ (t : Table) (v : String), findCount t v = none → countOf t v = 0) := by
  refine ⟨countOfS_runOps ops s o, rowExists_runOps ops s o, ?_, ?_⟩
  · intro t v
    rw [findCount_increment_self]
    rfl
  · intro t v h
    simp [countOf, h]

/-- Witness for C8 at a concrete operation sequence. -/
theorem C8_witness :
    countOfS (some [("cats", 1)]) "cats"
      ≤ countOfS (runOps (some [("cats", 1)])
          [WorkerOp.process "cats", WorkerOp.ensure,
            WorkerOp.process "bird"]) "cats" ∧
    rowExists (runOps (some [("cats", 1)])
        [WorkerOp.process "cats", WorkerOp.ensure,
          WorkerOp.process "bird"]) "cats" = true ∧
    (findCount (increment_vote [] "dogs") "dogs").isSome = true ∧
    countOf [("cats", 1)] "dogs" = 0 :=
  ⟨(C8_monotone (some [("cats", 1)])
      [WorkerOp.process "cats", WorkerOp.ensure, WorkerOp.process "bird"]
      "cats").1,
   (C8_monotone (some [("cats", 1)])
      [WorkerOp.process "cats", WorkerOp.ensure, WorkerOp.process "bird"]
      "cats").2.1 (by decide),
   (C8_monotone (some []) [] "cats").2.2.1 [] "dogs",
   (C8_monotone (some []) [] "cats").2.2.2 [("cats", 1)] "dogs" (by decide)⟩

/-- Claim C9: a `POST /vote` with the form field entirely absent mutates
nothing and returns the redirect to `/`, and it behaves exactly like any
invalid value: the handler's result on a missing field equals its result
on any value outside the ballot set. -/
theorem C9_missing_field (st : RedisState) :
    vote st none = Except.ok (st, Response.redirect "/") ∧
    ∀ w : String, ¬(w = "cats" ∨ w = "dogs") →
      vote st (some w) = vote st none := by
  refine ⟨rfl, fun w hw => ?_⟩
  simp only [vote]
  rw [if_neg hw]

/-- Witness for C9 at a concrete store state and invalid value. -/
theorem C9_witness :
    vote ⟨true, "", []⟩ none = Except.ok (⟨true, "", []⟩, Response.redirect "/") ∧
    vote ⟨true, "", []⟩ (some "elephants") = vote ⟨true, "", []⟩ none :=
  ⟨(C9_missing_field ⟨true, "", []⟩).1,
   (C9_missing_field ⟨true, "", []⟩).2 "elephants" (by decide)⟩

/-- Claim C10: starting from an empty table, after any sequence of
main-loop iterations every row of the tally table names one of the two
ballot options and carries a count of at least 1. -/
theorem C10_table_wellformed (vals : List String) (r : String × Nat)
    (h : r ∈ runWorker [] vals) :
    (r.1 = "cats" ∨ r.1 = "dogs") ∧ 1 ≤ r.2 :=
  rows_runWorker vals [] (fun x hx => absurd hx (List.not_mem_nil x)) r h

/-- Witness for C10 at a concrete run. -/
theorem C10_witness :
    ((("cats", 1) : String × Nat).1 = "cats"
        ∨ (("cats", 1) : String × Nat).1 = "dogs") ∧
    1 ≤ (("cats", 1) : String × Nat).2 :=
  C10_table_wellformed ["cats"] ("cats", 1) (by decide)

end VotingApp
